import Mathlib

/-!
# Verification of the glacier-list paged sequence

The repository ships a disk-paged sequence container (`GlacierList`): a
list-like structure that keeps an in-memory tail of at most `chunk_size`
records and spills completed groups of `chunk_size` records ("chunks") to
numbered files on disk.  The core module `glacier_list/glacier_list.py` is
not present in the source tree (only its tests, CLI and package init are),
so every definition below is modelled from the specification's description
of the data model and operations, and checked against the behaviour pinned
down by `tests/test_glacier_list_integration.py`.

The model is purely functional: the chunk store (the directory of chunk
files) is a list of chunks indexed by ordinal, the tail is a list, and
fallible operations return `Except`.
-/

set_option autoImplicit false

namespace GlacierSpec

variable {α : Type}

/-- Errors of the paged sequence, mirroring the Python exceptions the tests
expect: `IndexError`, `ValueError` on slice-length mismatch, `TypeError` on a
non-sequence slice assignment, and a storage failure on a missing chunk. -/
inductive GLError where
  | indexOutOfRange
  | lengthMismatch
  | typeMismatch
  | storageFailure
  deriving DecidableEq, Repr

/-- A resolved physical address: either an offset into a flushed chunk
(identified by its ordinal) or an offset into the in-memory tail. -/
inductive Address where
  | chunk (ordinal offset : Nat)
  | tail (offset : Nat)
  deriving DecidableEq, Repr

/-- Modelled from the spec: the Address Translator (the core module is
missing from the source tree).  Given a possibly negative index, the total
length, the chunk capacity and the chunk count, it normalizes a negative
index by adding `total_length`, rejects indices outside `[0, total_length)`,
and otherwise resolves to the tail when the index is at or beyond
`chunk_count * chunk_capacity`, and to `(index / capacity, index % capacity)`
inside the flushed chunks otherwise. -/
def translate (index : Int) (total_length chunk_capacity chunk_count : Nat) :
    Option Address :=
  let resolved : Int := if index < 0 then index + total_length else index
  if resolved < 0 ∨ (total_length : Int) ≤ resolved then none
  else
    let i := resolved.toNat
    if chunk_count * chunk_capacity ≤ i then
      some (.tail (i - chunk_count * chunk_capacity))
    else
      some (.chunk (i / chunk_capacity) (i % chunk_capacity))

/-- Modelled from the spec: the state of a `GlacierList` (the core module is
missing from the source tree).  `chunks` is the chunk store: the ordered
list of chunk files on disk, ordinal `k` at position `k`; `chunk_count` is
the count maintained by the paged sequence itself; `tail` is the in-memory
buffer (`_in_memory_list` in the tests). -/
structure GlacierList (α : Type) where
  chunk_size : Nat
  chunk_count : Nat
  chunks : List (List α)
  tail : List α
  deriving DecidableEq, Repr

namespace GlacierList

/-- A freshly constructed paged sequence: no chunks, empty tail. -/
def empty (chunk_size : Nat) : GlacierList α :=
  ⟨chunk_size, 0, [], []⟩

/-- `length()`: the maintained O(1) sum `chunk_count * chunk_size + len(tail)`;
never touches the store. -/
def length (gl : GlacierList α) : Nat :=
  gl.chunk_count * gl.chunk_size + gl.tail.length

/-- Chunk-store `save(ordinal, blob)`: create-or-overwrite the file for the
given ordinal. -/
def save (chunks : List (List α)) (ordinal : Nat) (c : List α) :
    List (List α) :=
  if ordinal < chunks.length then chunks.set ordinal c else chunks ++ [c]

/-- Chunk-store `load(ordinal)`: read the chunk file, `none` when missing. -/
def load (gl : GlacierList α) (ordinal : Nat) : Option (List α) :=
  gl.chunks[ordinal]?

/-- Modelled from the spec: `append(value)` pushes onto the tail and, when
the tail reaches `chunk_size`, flushes it as chunk `chunk_count`, increments
`chunk_count` and clears the tail. -/
def append (gl : GlacierList α) (v : α) : GlacierList α :=
  let t := gl.tail ++ [v]
  if t.length = gl.chunk_size then
    ⟨gl.chunk_size, gl.chunk_count + 1, save gl.chunks gl.chunk_count t, []⟩
  else
    ⟨gl.chunk_size, gl.chunk_count, gl.chunks, t⟩

/-- Repeated `append`: the specification-level meaning of `extend`. -/
def extendSpec (gl : GlacierList α) (vs : List α) : GlacierList α :=
  vs.foldl append gl

/-- Flush whole chunks of size `cap` directly from a value buffer,
saving each at the next ordinal. -/
def batchLoop (cap : Nat) (chunks : List (List α)) (cc : Nat)
    (vs : List α) : List (List α) × Nat × List α :=
  if h : 0 < cap ∧ cap ≤ vs.length then
    batchLoop cap (save chunks cc (vs.take cap)) (cc + 1) (vs.drop cap)
  else
    (chunks, cc, vs)
  termination_by vs.length
  decreasing_by
    simp only [List.length_drop]
    omega

/-- Modelled from the spec: `extend(values)`, in the batch-flushing form the
spec allows: top the tail up to a full chunk, flush it, then flush whole
chunks directly from the remaining values without staging each element
through the tail, leaving the remainder as the new tail. -/
def extend (gl : GlacierList α) (vs : List α) : GlacierList α :=
  if gl.tail.length + vs.length < gl.chunk_size then
    ⟨gl.chunk_size, gl.chunk_count, gl.chunks, gl.tail ++ vs⟩
  else
    let room := gl.chunk_size - gl.tail.length
    let first := gl.tail ++ vs.take room
    let res := batchLoop gl.chunk_size
      (save gl.chunks gl.chunk_count first) (gl.chunk_count + 1)
      (vs.drop room)
    ⟨gl.chunk_size, res.2.1, res.1, res.2.2⟩

/-- Modelled from the spec: `get(index)` (`__getitem__` with an integer):
translate the address, then read from the tail or load the chunk and read
the offset. -/
def get (gl : GlacierList α) (index : Int) : Option α :=
  match translate index gl.length gl.chunk_size gl.chunk_count with
  | none => none
  | some (.tail o) => gl.tail[o]?
  | some (.chunk k o) => gl.chunks[k]?.bind fun (ch : List α) => ch[o]?

/-- Modelled from the spec: `set(index, value)` (`__setitem__` with an
integer): translate, then mutate the tail in place, or load the chunk,
replace the offset, and save it back. -/
def set (gl : GlacierList α) (index : Int) (v : α) :
    Except GLError (GlacierList α) :=
  match translate index gl.length gl.chunk_size gl.chunk_count with
  | none => .error .indexOutOfRange
  | some (.tail o) =>
      .ok ⟨gl.chunk_size, gl.chunk_count, gl.chunks, gl.tail.set o v⟩
  | some (.chunk k o) =>
      match gl.chunks[k]? with
      | none => .error .storageFailure
      | some c =>
          .ok ⟨gl.chunk_size, gl.chunk_count, save gl.chunks k (c.set o v),
            gl.tail⟩

/-- The sub-range of the chunks covered by the global range
`[start, stop)`, visited in ascending ordinal order; each step shifts the
bounds down by the capacity of the chunk just passed. -/
def sliceChunks (cap : Nat) : List (List α) → Nat → Nat → List α
  | [], _, _ => []
  | c :: cs, start, stop =>
      (c.take stop).drop start ++ sliceChunks cap cs (start - cap) (stop - cap)

/-- Modelled from the spec: `get_slice(start, stop)`: visit every chunk
fully or partially covered by `[start, stop)` in ascending ordinal order,
concatenating the relevant sub-ranges, followed by the relevant part of the
tail. -/
def get_slice (gl : GlacierList α) (start stop : Nat) : List α :=
  let base := gl.chunk_count * gl.chunk_size
  sliceChunks gl.chunk_size gl.chunks start stop ++
    (gl.tail.take (stop - base)).drop (start - base)

/-- The replacement argument of a slice assignment: either an ordered,
indexable sequence of records, or a single non-sequence value. -/
inductive SliceArg (α : Type) where
  | seq (vs : List α)
  | nonSeq (v : α)

/-- Write `vs` element-wise at consecutive indices starting at `i`. -/
def setAll (gl : GlacierList α) (i : Nat) : List α →
    Except GLError (GlacierList α)
  | [] => .ok gl
  | v :: vs => (gl.set (i : Int) v).bind fun gl2 => setAll gl2 (i + 1) vs

/-- Modelled from the spec: `set_slice(start, stop, values)` (`__setitem__`
with a slice): a non-sequence argument fails with a type-mismatch error; a
sequence whose length differs from `stop - start` fails with a
length-mismatch error; otherwise the values are applied element-wise via
repeated `set`. -/
def set_slice (gl : GlacierList α) (start stop : Nat) (arg : SliceArg α) :
    Except GLError (GlacierList α) :=
  match arg with
  | .nonSeq _ => .error .typeMismatch
  | .seq vs =>
      if vs.length ≠ stop - start then .error .lengthMismatch
      else setAll gl start vs

/-- Modelled from the spec: `map(f)` / `transform_all`: apply `f` to every
record of every chunk (load, map, save back) and to the tail. -/
def map (gl : GlacierList α) (f : α → α) : GlacierList α :=
  ⟨gl.chunk_size, gl.chunk_count, gl.chunks.map (List.map f),
    gl.tail.map f⟩

/-- Modelled from the spec: `combine_chunks()`: load every chunk in
ascending ordinal order, concatenate, and append the tail. -/
def combine_chunks (gl : GlacierList α) : List α :=
  gl.chunks.flatten ++ gl.tail

/-- Modelled from the spec: `cleanup_chunks()` / purge: delete every chunk
file under the root and reset `chunk_count` to 0; the tail is untouched. -/
def cleanup_chunks (gl : GlacierList α) : GlacierList α :=
  ⟨gl.chunk_size, 0, [], gl.tail⟩

end GlacierList

/-- One mutating call of the sequence-growth interface. -/
inductive GrowOp (α : Type) where
  | app (v : α)
  | ext (vs : List α)

/-- Run one growth call. -/
def GrowOp.run (gl : GlacierList α) : GrowOp α → GlacierList α
  | .app v => gl.append v
  | .ext vs => gl.extend vs

/-- Well-formedness of a paged sequence at rest: positive capacity, the
maintained chunk count matches the store, every flushed chunk holds exactly
`chunk_size` records, and the tail is strictly below capacity. -/
structure WF (gl : GlacierList α) : Prop where
  cap_pos : 0 < gl.chunk_size
  count_eq : gl.chunk_count = gl.chunks.length
  chunk_full : ∀ c ∈ gl.chunks, c.length = gl.chunk_size
  tail_lt : gl.tail.length < gl.chunk_size

/-- JSON-like field values: the shapes the integration tests store in a
record (strings, integers, booleans, null, arrays, nested objects). -/
inductive JVal where
  | str (s : String)
  | num (n : Int)
  | bool (b : Bool)
  | null
  | arr (xs : List JVal)
  | obj (fs : List (String × JVal))

/-- A record: an ordered mapping of named fields to JSON-like values. -/
abbrev Record : Type := List (String × JVal)

/-- The opening brace character. -/
def lbrace : Char := Char.ofNat 123

/-- The closing brace character. -/
def rbrace : Char := Char.ofNat 125

/-- JSON string escaping of one character: quote and backslash get a
backslash escape, all other characters are kept as they are. -/
def escapeChar (c : Char) : List Char :=
  if c = '"' ∨ c = '\\' then ['\\', c] else [c]

/-- The escaped body of a JSON string literal. -/
def encodeStrBody (s : List Char) : List Char :=
  (s.map escapeChar).flatten

/-- A JSON string literal: quote, escaped body, quote. -/
def encodeString (s : String) : List Char :=
  '"' :: encodeStrBody s.data ++ ['"']

/-- The decimal digit character for `d < 10`. -/
def digitChar (d : Nat) : Char := Char.ofNat (48 + d)

/-- Decimal text of a natural number. -/
def encodeNat (n : Nat) : List Char :=
  if n = 0 then ['0'] else ((Nat.digits 10 n).map digitChar).reverse

/-- Decimal text of an integer, with a leading minus sign when negative. -/
def encodeInt (n : Int) : List Char :=
  if n < 0 then '-' :: encodeNat n.natAbs else encodeNat n.natAbs

mutual

/-- JSON text encoding of a value, in the style of `json.dumps`. -/
def encodeJ : JVal → List Char
  | .str s => encodeString s
  | .num n => encodeInt n
  | .bool true => "true".data
  | .bool false => "false".data
  | .null => "null".data
  | .arr xs => '[' :: encodeElems xs ++ [']']
  | .obj fs => lbrace :: encodeMembers fs ++ [rbrace]

/-- Comma-separated encodings of array elements. -/
def encodeElems : List JVal → List Char
  | [] => []
  | [x] => encodeJ x
  | x :: y :: xs => encodeJ x ++ ',' :: encodeElems (y :: xs)

/-- Comma-separated `"key":value` encodings of object members. -/
def encodeMembers : List (String × JVal) → List Char
  | [] => []
  | [(k, v)] => encodeString k ++ ':' :: encodeJ v
  | (k, v) :: m :: fs =>
      encodeString k ++ ':' :: encodeJ v ++ ',' :: encodeMembers (m :: fs)

end

/-- One item of a JSON string body: a plain character or an escape pair. -/
inductive JsonStrItem : List Char → Prop where
  | plain (c : Char) : c ≠ '"' → c ≠ '\\' → JsonStrItem [c]
  | esc (c : Char) : c = '"' ∨ c = '\\' → JsonStrItem ['\\', c]

/-- The body of a JSON string literal: a concatenation of items. -/
inductive JsonStrBody : List Char → Prop where
  | nil : JsonStrBody []
  | cons {a b : List Char} : JsonStrItem a → JsonStrBody b →
      JsonStrBody (a ++ b)

/-- A JSON number: a nonempty digit run, optionally preceded by a minus. -/
inductive JsonNumber : List Char → Prop where
  | pos {s : List Char} : s ≠ [] → (∀ c ∈ s, c.isDigit) → JsonNumber s
  | neg {s : List Char} : s ≠ [] → (∀ c ∈ s, c.isDigit) →
      JsonNumber ('-' :: s)

mutual

/-- The JSON grammar of values, as a predicate on character strings:
this is what "parses as valid JSON" means below. -/
inductive JsonValue : List Char → Prop where
  | null : JsonValue "null".data
  | tru : JsonValue "true".data
  | fls : JsonValue "false".data
  | num {s : List Char} : JsonNumber s → JsonValue s
  | str {s : List Char} : JsonStrBody s → JsonValue ('"' :: s ++ ['"'])
  | arrNil : JsonValue ['[', ']']
  | arr {s : List Char} : JsonElems s → JsonValue ('[' :: s ++ [']'])
  | objNil : JsonValue [lbrace, rbrace]
  | obj {s : List Char} : JsonMembers s → JsonValue (lbrace :: s ++ [rbrace])

/-- Comma-separated JSON values (a nonempty array body). -/
inductive JsonElems : List Char → Prop where
  | single {v : List Char} : JsonValue v → JsonElems v
  | cons {v rest : List Char} : JsonValue v → JsonElems rest →
      JsonElems (v ++ ',' :: rest)

/-- Comma-separated JSON object members (a nonempty object body). -/
inductive JsonMembers : List Char → Prop where
  | single {k v : List Char} : JsonStrBody k → JsonValue v →
      JsonMembers ('"' :: k ++ '"' :: ':' :: v)
  | cons {k v rest : List Char} : JsonStrBody k → JsonValue v →
      JsonMembers rest →
      JsonMembers ('"' :: k ++ '"' :: ':' :: v ++ ',' :: rest)

end

/-- Does `serialize()` rewrite this field value?  Lists, mappings and
booleans are JSON-encoded into strings; other values are left alone. -/
def needsEncoding : JVal → Bool
  | .arr _ => true
  | .obj _ => true
  | .bool _ => true
  | _ => false

/-- Modelled from the spec and tests: the field-level serialization
collaborator: a list, mapping or boolean field value is replaced by its
JSON text encoding (the core module is missing from the source tree). -/
def serializeField (v : JVal) : JVal :=
  if needsEncoding v then .str (String.mk (encodeJ v)) else v

/-- Field-level serialization applied to every field of a record,
preserving field order. -/
def serializeRecord (r : Record) : Record :=
  r.map fun kv => (kv.1, serializeField kv.2)

/-- Modelled from the tests: `serialize()` rewrites every record in place,
across every chunk and the tail, by the field-level encoding (the core
module is missing from the source tree). -/
def GlacierList.serialize (gl : GlacierList Record) : GlacierList Record :=
  gl.map serializeRecord

namespace GlacierList

theorem save_at_length (chunks : List (List α)) (c : List α) :
    save chunks chunks.length c = chunks ++ [c] := by
  simp [save]

theorem append_flush (gl : GlacierList α) (v : α)
    (h : gl.tail.length + 1 = gl.chunk_size) :
    gl.append v = ⟨gl.chunk_size, gl.chunk_count + 1,
      save gl.chunks gl.chunk_count (gl.tail ++ [v]), []⟩ := by
  simp [append, h]

theorem append_push (gl : GlacierList α) (v : α)
    (h : gl.tail.length + 1 ≠ gl.chunk_size) :
    gl.append v =
      ⟨gl.chunk_size, gl.chunk_count, gl.chunks, gl.tail ++ [v]⟩ := by
  simp [append, h]

theorem wf_append {gl : GlacierList α} (wf : WF gl) (v : α) :
    WF (gl.append v) := by
  by_cases h : gl.tail.length + 1 = gl.chunk_size
  · rw [append_flush gl v h]
    refine ⟨wf.cap_pos, ?_, ?_, wf.cap_pos⟩
    · simp [wf.count_eq, save_at_length]
    · intro c hc
      simp only at hc
      rw [wf.count_eq, save_at_length] at hc
      rcases List.mem_append.mp hc with hc | hc
      · exact wf.chunk_full c hc
      · simp only [List.mem_singleton] at hc
        subst hc
        simpa using h
  · rw [append_push gl v h]
    refine ⟨wf.cap_pos, wf.count_eq, wf.chunk_full, ?_⟩
    have := wf.tail_lt
    simp only [List.length_append, List.length_singleton]
    omega

theorem foldl_append_small (vs : List α) (gl : GlacierList α)
    (h : gl.tail.length + vs.length < gl.chunk_size) :
    vs.foldl append gl =
      ⟨gl.chunk_size, gl.chunk_count, gl.chunks, gl.tail ++ vs⟩ := by
  induction vs generalizing gl with
  | nil => simp
  | cons v vs ih =>
    simp only [List.length_cons] at h
    rw [List.foldl_cons, append_push gl v (by omega)]
    rw [ih]
    · simp
    · simp only [List.length_append, List.length_singleton]
      omega

theorem foldl_append_fill (vs : List α) (gl : GlacierList α)
    (hlt : gl.tail.length < gl.chunk_size)
    (h : gl.tail.length + vs.length = gl.chunk_size) :
    vs.foldl append gl = ⟨gl.chunk_size, gl.chunk_count + 1,
      save gl.chunks gl.chunk_count (gl.tail ++ vs), []⟩ := by
  induction vs generalizing gl with
  | nil => simp at h; omega
  | cons v vs ih =>
    simp only [List.length_cons] at h
    rcases Nat.eq_zero_or_pos vs.length with hz | hpos
    · rw [List.length_eq_zero] at hz
      subst hz
      simp only [List.length_nil] at h
      rw [List.foldl_cons, List.foldl_nil, append_flush gl v (by omega)]
    · rw [List.foldl_cons, append_push gl v (by omega), ih]
      · simp
      · simp only [List.length_append, List.length_singleton]
        omega
      · simp only [List.length_append, List.length_singleton]
        omega

theorem extend_empty_tail (cap cc : Nat) (chunks : List (List α))
    (vs : List α) (hcap : 0 < cap) :
    extend ⟨cap, cc, chunks, []⟩ vs =
      ⟨cap, (batchLoop cap chunks cc vs).2.1, (batchLoop cap chunks cc vs).1,
        (batchLoop cap chunks cc vs).2.2⟩ := by
  by_cases h : vs.length < cap
  · conv_rhs => rw [batchLoop]
    rw [dif_neg (by omega)]
    simp [extend, h]
  · conv_rhs => rw [batchLoop]
    rw [dif_pos ⟨hcap, by omega⟩]
    simp only [extend, List.length_nil, Nat.zero_add, Nat.sub_zero,
      List.nil_append]
    rw [if_neg h]

theorem extend_eq_foldl_aux (n : Nat) :
    ∀ (vs : List α) (gl : GlacierList α), vs.length ≤ n →
    0 < gl.chunk_size → gl.tail.length < gl.chunk_size →
    gl.extend vs = vs.foldl append gl := by
  induction n with
  | zero =>
    intro vs gl hn hcap hlt
    have : vs = [] := List.length_eq_zero.mp (by omega)
    subst this
    cases gl
    simp [extend, hlt]
  | succ n ih =>
    intro vs gl hn hcap hlt
    by_cases hsmall : gl.tail.length + vs.length < gl.chunk_size
    · rw [extend, if_pos hsmall, foldl_append_small vs gl hsmall]
    · have hroom : gl.chunk_size - gl.tail.length ≤ vs.length := by omega
      set room := gl.chunk_size - gl.tail.length with hroomdef
      have hroompos : 0 < room := by omega
      have hlen_take : (vs.take room).length = room := by
        rw [List.length_take]
        omega
      have hfill : gl.tail.length + (vs.take room).length =
          gl.chunk_size := by
        rw [hlen_take]
        omega
      have hfold : vs.foldl append gl =
          (vs.drop room).foldl append ((vs.take room).foldl append gl) := by
        conv_lhs => rw [← List.take_append_drop room vs]
        rw [List.foldl_append]
      rw [hfold, foldl_append_fill (vs.take room) gl hlt hfill]
      have hdroplen : (vs.drop room).length ≤ n := by
        rw [List.length_drop]
        omega
      rw [← ih (vs.drop room)
        ⟨gl.chunk_size, gl.chunk_count + 1,
          save gl.chunks gl.chunk_count (gl.tail ++ vs.take room), []⟩
        hdroplen hcap (by simpa using hcap)]
      rw [extend_empty_tail _ _ _ _ hcap]
      rw [extend, if_neg hsmall]

theorem extend_eq_foldl (vs : List α) (gl : GlacierList α)
    (hcap : 0 < gl.chunk_size) (hlt : gl.tail.length < gl.chunk_size) :
    gl.extend vs = vs.foldl append gl :=
  extend_eq_foldl_aux vs.length vs gl le_rfl hcap hlt

theorem chunks_flatten_length {gl : GlacierList α} (wf : WF gl) :
    gl.chunks.flatten.length = gl.chunk_count * gl.chunk_size := by
  rw [List.length_flatten, wf.count_eq]
  have hrep : gl.chunks.map List.length =
      List.replicate gl.chunks.length gl.chunk_size := by
    rw [List.eq_replicate]
    exact ⟨List.length_map _ _, by
      intro b hb
      rcases List.mem_map.mp hb with ⟨c, hc, rfl⟩
      exact wf.chunk_full c hc⟩
  rw [hrep, List.sum_replicate, smul_eq_mul]

theorem combine_length {gl : GlacierList α} (wf : WF gl) :
    gl.combine_chunks.length = gl.length := by
  rw [combine_chunks, List.length_append, chunks_flatten_length wf, length]

theorem translate_lt (i L cap cc : Nat) (h : i < L) :
    translate (i : Int) L cap cc =
      if cc * cap ≤ i then some (.tail (i - cc * cap))
      else some (.chunk (i / cap) (i % cap)) := by
  have h1 : ¬((i : Int) < 0) := by
    simp [Int.not_lt]
  simp only [translate, h1, if_false, false_or, Int.toNat_natCast]
  rw [if_neg (by exact_mod_cast Nat.not_le.mpr h)]

theorem translate_ge (i L cap cc : Nat) (h : L ≤ i) :
    translate (i : Int) L cap cc = none := by
  have h1 : ¬((i : Int) < 0) := by
    simp [Int.not_lt]
  simp only [translate, h1, if_false, false_or, Int.toNat_natCast]
  rw [if_pos (by exact_mod_cast h)]

theorem flatten_getElem? (cap : Nat) (hcap : 0 < cap) :
    ∀ (cs : List (List α)), (∀ c ∈ cs, c.length = cap) → ∀ i : Nat,
    cs.flatten[i]? = cs[i / cap]?.bind fun (ch : List α) => ch[i % cap]? := by
  intro cs
  induction cs with
  | nil => intro _ i; simp
  | cons c cs ih =>
    intro hfull i
    have hc : c.length = cap := hfull c (List.mem_cons_self c cs)
    rw [List.flatten_cons]
    by_cases h : i < cap
    · rw [List.getElem?_append_left (by rw [hc]; exact h),
        Nat.div_eq_of_lt h, Nat.mod_eq_of_lt h]
      simp
    · push_neg at h
      rw [List.getElem?_append_right (by rw [hc]; exact h), hc,
        ih (fun c2 hc2 => hfull c2 (List.mem_cons_of_mem _ hc2)) (i - cap)]
      have hdiv : i / cap = (i - cap) / cap + 1 := Nat.div_eq_sub_div hcap h
      have hmod : i % cap = (i - cap) % cap := Nat.mod_eq_sub_mod h
      rw [hdiv, hmod]
      simp

theorem get_eq_combine {gl : GlacierList α} (wf : WF gl) (i : Nat) :
    gl.get (i : Int) = gl.combine_chunks[i]? := by
  by_cases h : i < gl.length
  · simp only [get]
    rw [translate_lt i gl.length gl.chunk_size gl.chunk_count h]
    by_cases h2 : gl.chunk_count * gl.chunk_size ≤ i
    · rw [if_pos h2]
      rw [combine_chunks,
        List.getElem?_append_right (by rw [chunks_flatten_length wf]; exact h2),
        chunks_flatten_length wf]
    · rw [if_neg h2]
      push_neg at h2
      rw [combine_chunks,
        List.getElem?_append_left (by rw [chunks_flatten_length wf]; exact h2),
        flatten_getElem? gl.chunk_size wf.cap_pos gl.chunks wf.chunk_full i]
  · push_neg at h
    simp only [get]
    rw [translate_ge i _ _ _ h]
    symm
    exact List.getElem?_eq_none (by rw [combine_length wf]; exact h)

theorem sliceChunks_stop_zero (cap : Nat) :
    ∀ (cs : List (List α)) (start : Nat), sliceChunks cap cs start 0 = [] := by
  intro cs
  induction cs with
  | nil => intro start; rfl
  | cons c cs ih => intro start; simp [sliceChunks, ih]

theorem sliceChunks_spec (cap : Nat) (hcap : 0 < cap) :
    ∀ (cs : List (List α)) (rest : List α) (start stop : Nat),
    (∀ c ∈ cs, c.length = cap) →
    sliceChunks cap cs start stop ++
        ((rest.take (stop - cs.flatten.length)).drop
          (start - cs.flatten.length)) =
      ((cs.flatten ++ rest).take stop).drop start := by
  intro cs
  induction cs with
  | nil => intro rest start stop _; simp [sliceChunks]
  | cons c cs ih =>
    intro rest start stop hfull
    have hc : c.length = cap := hfull c (List.mem_cons_self c cs)
    have hfull2 : ∀ c2 ∈ cs, c2.length = cap :=
      fun c2 hc2 => hfull c2 (List.mem_cons_of_mem _ hc2)
    simp only [sliceChunks, List.flatten_cons, List.length_append, hc,
      List.append_assoc]
    rw [List.take_append_eq_append_take, List.drop_append_eq_append_drop,
      List.length_take, hc]
    by_cases hstop : cap ≤ stop
    · have hmin : min stop cap = cap := by omega
      rw [hmin, ← ih rest (start - cap) (stop - cap) hfull2]
      have e1 : stop - (cap + cs.flatten.length) =
          stop - cap - cs.flatten.length := by omega
      have e2 : start - (cap + cs.flatten.length) =
          start - cap - cs.flatten.length := by omega
      rw [e1, e2]
    · push_neg at hstop
      have h0 : stop - cap = 0 := by omega
      have h1 : stop - (cap + cs.flatten.length) = 0 := by omega
      rw [h0, h1, sliceChunks_stop_zero]
      simp

theorem get_slice_eq_take_drop {gl : GlacierList α} (wf : WF gl)
    (start stop : Nat) :
    gl.get_slice start stop = (gl.combine_chunks.take stop).drop start := by
  rw [get_slice, combine_chunks,
    ← sliceChunks_spec gl.chunk_size wf.cap_pos gl.chunks gl.tail start stop
      wf.chunk_full, chunks_flatten_length wf]

theorem take_drop_map_getElem? (l : List α) (start stop : Nat)
    (hstop : stop ≤ l.length) :
    ((l.take stop).drop start).map some =
      (List.range' start (stop - start)).map fun i => l[i]? := by
  apply List.ext_getElem?
  intro j
  rw [List.getElem?_map, List.getElem?_map, List.getElem?_drop,
    List.getElem?_take]
  by_cases h : j < stop - start
  · rw [List.getElem?_range' _ _ h, if_pos (by omega)]
    have hlt : start + j < l.length := by omega
    rw [List.getElem?_eq_getElem hlt]
    simp
  · rw [List.getElem?_eq_none (l := List.range' start (stop - start))
      (by rw [List.length_range']; omega), if_neg (by omega)]
    simp

theorem wf_foldl_append {gl : GlacierList α} (wf : WF gl) (vs : List α) :
    WF (vs.foldl append gl) := by
  induction vs generalizing gl with
  | nil => exact wf
  | cons v vs ih => exact ih (wf_append wf v)

theorem wf_extend {gl : GlacierList α} (wf : WF gl) (vs : List α) :
    WF (gl.extend vs) := by
  rw [extend_eq_foldl vs gl wf.cap_pos wf.tail_lt]
  exact wf_foldl_append wf vs

end GlacierList

theorem wf_run {gl : GlacierList α} (wf : GlacierSpec.WF gl)
    (op : GrowOp α) : WF (op.run gl) := by
  cases op with
  | app v => exact GlacierList.wf_append wf v
  | ext vs => exact GlacierList.wf_extend wf vs

theorem wf_empty (cap : Nat) (hcap : 0 < cap) :
    WF (GlacierList.empty (α := α) cap) :=
  ⟨hcap, rfl, by simp [GlacierList.empty], by simpa [GlacierList.empty]⟩

theorem wf_growList (cap : Nat) (hcap : 0 < cap) (ops : List (GrowOp α)) :
    WF (ops.foldl GrowOp.run (GlacierList.empty cap)) := by
  induction ops using List.reverseRecOn with
  | nil => exact wf_empty cap hcap
  | append_singleton ops op ih =>
      rw [List.foldl_append, List.foldl_cons, List.foldl_nil]
      exact wf_run ih op

theorem chunk_size_run (gl : GlacierList α) (op : GrowOp α) :
    (op.run gl).chunk_size = gl.chunk_size := by
  cases op with
  | app v =>
      simp only [GrowOp.run, GlacierList.append]
      split <;> rfl
  | ext vs =>
      simp only [GrowOp.run, GlacierList.extend]
      split <;> rfl

theorem chunk_size_growList (cap : Nat) (ops : List (GrowOp α)) :
    (ops.foldl GrowOp.run (GlacierList.empty cap)).chunk_size = cap := by
  induction ops using List.reverseRecOn with
  | nil => rfl
  | append_singleton ops op ih =>
      rw [List.foldl_append, List.foldl_cons, List.foldl_nil,
        chunk_size_run, ih]

theorem map_length (gl : GlacierList α) (f : α → α) :
    (gl.map f).length = gl.length := by
  simp [GlacierList.map, GlacierList.length]

theorem map_get (gl : GlacierList α) (f : α → α) (index : Int) :
    (gl.map f).get index = (gl.get index).map f := by
  simp only [GlacierList.get]
  rw [show (gl.map f).chunk_size = gl.chunk_size from rfl,
    show (gl.map f).chunk_count = gl.chunk_count from rfl, map_length]
  cases htr : translate index gl.length gl.chunk_size gl.chunk_count with
  | none => rfl
  | some a =>
      cases a with
      | tail o => simp [GlacierList.map, List.getElem?_map]
      | chunk k o =>
          simp only [GlacierList.map]
          rw [List.getElem?_map]
          cases gl.chunks[k]? <;> simp [List.getElem?_map]

theorem digitChar_isDigit : ∀ d : Nat, d < 10 → (digitChar d).isDigit = true := by
  decide

theorem encodeNat_ne_nil (n : Nat) : encodeNat n ≠ [] := by
  rw [encodeNat]
  split
  · simp
  · rename_i h
    have hne : Nat.digits 10 n ≠ [] := Nat.digits_ne_nil_iff_ne_zero.mpr h
    simp only [ne_eq, List.reverse_eq_nil_iff, List.map_eq_nil]
    exact hne

theorem encodeNat_digits (n : Nat) : ∀ c ∈ encodeNat n, c.isDigit = true := by
  intro c hc
  rw [encodeNat] at hc
  split at hc
  · simp only [List.mem_singleton] at hc
    subst hc
    decide
  · rw [List.mem_reverse] at hc
    rcases List.mem_map.mp hc with ⟨d, hd, rfl⟩
    exact digitChar_isDigit d (Nat.digits_lt_base (by norm_num) hd)

theorem jsonNumber_encodeInt (n : Int) : JsonNumber (encodeInt n) := by
  rw [encodeInt]
  split
  · exact JsonNumber.neg (encodeNat_ne_nil _) (encodeNat_digits _)
  · exact JsonNumber.pos (encodeNat_ne_nil _) (encodeNat_digits _)

theorem jsonStrBody_encodeStrBody (s : List Char) :
    JsonStrBody (encodeStrBody s) := by
  induction s with
  | nil => exact JsonStrBody.nil
  | cons c cs ih =>
    show JsonStrBody (((c :: cs).map escapeChar).flatten)
    simp only [List.map_cons, List.flatten_cons]
    refine JsonStrBody.cons ?_ ih
    rw [escapeChar]
    split
    · exact JsonStrItem.esc c (by assumption)
    · rename_i h
      push_neg at h
      exact JsonStrItem.plain c h.1 h.2

mutual

theorem encodeJ_valid : ∀ v : JVal, JsonValue (encodeJ v)
  | .null => by
      simp only [encodeJ]
      exact JsonValue.null
  | .bool true => by
      simp only [encodeJ]
      exact JsonValue.tru
  | .bool false => by
      simp only [encodeJ]
      exact JsonValue.fls
  | .num n => by
      simp only [encodeJ]
      exact JsonValue.num (jsonNumber_encodeInt n)
  | .str s => by
      simp only [encodeJ, encodeString]
      exact JsonValue.str (jsonStrBody_encodeStrBody s.data)
  | .arr [] => by
      simp only [encodeJ, encodeElems, List.nil_append]
      exact JsonValue.arrNil
  | .arr (x :: xs) => by
      simp only [encodeJ]
      exact JsonValue.arr (encodeElems_valid x xs)
  | .obj [] => by
      simp only [encodeJ, encodeMembers, List.nil_append]
      exact JsonValue.objNil
  | .obj (f :: fs) => by
      simp only [encodeJ]
      exact JsonValue.obj (encodeMembers_valid f fs)
  termination_by v => sizeOf v
  decreasing_by all_goals (simp_wf <;> omega)

theorem encodeElems_valid : ∀ (x : JVal) (xs : List JVal),
    JsonElems (encodeElems (x :: xs))
  | x, [] => by
      simp only [encodeElems]
      exact JsonElems.single (encodeJ_valid x)
  | x, y :: xs => by
      simp only [encodeElems]
      exact JsonElems.cons (encodeJ_valid x) (encodeElems_valid y xs)
  termination_by x xs => 1 + sizeOf x + sizeOf xs
  decreasing_by all_goals (simp_wf <;> omega)

theorem encodeMembers_valid : ∀ (f : String × JVal)
    (fs : List (String × JVal)), JsonMembers (encodeMembers (f :: fs))
  | (k, v), [] => by
      simp only [encodeMembers, encodeString, List.cons_append,
        List.append_assoc, List.singleton_append]
      exact JsonMembers.single (jsonStrBody_encodeStrBody k.data)
        (encodeJ_valid v)
  | (k, v), m :: fs => by
      simp only [encodeMembers, encodeString, List.cons_append,
        List.append_assoc, List.singleton_append, List.nil_append]
      have h := JsonMembers.cons (jsonStrBody_encodeStrBody k.data)
        (encodeJ_valid v) (encodeMembers_valid m fs)
      simpa [List.cons_append, List.append_assoc] using h
  termination_by f fs => 1 + sizeOf f + sizeOf fs
  decreasing_by all_goals (simp_wf <;> omega)

end

/-- C1: for every sequence of append and extend calls starting from a
freshly constructed paged sequence, after every completed call the number
of stored records equals `chunk_count * chunk_capacity + len(tail)`, and
`0 ≤ len(tail) < chunk_capacity` (the lower bound holds because lengths
are natural numbers). -/
theorem claim_C1_growth_invariant {α : Type} (cap : Nat) (hcap : 0 < cap)
    (ops : List (GrowOp α)) :
    ((ops.foldl GrowOp.run (GlacierList.empty cap)).combine_chunks.length =
        (ops.foldl GrowOp.run (GlacierList.empty cap)).chunk_count * cap +
          (ops.foldl GrowOp.run (GlacierList.empty cap)).tail.length) ∧
      (ops.foldl GrowOp.run (GlacierList.empty cap)).tail.length < cap := by
  have wf := wf_growList cap hcap ops
  have hs := chunk_size_growList (α := α) cap ops
  constructor
  · rw [GlacierList.combine_length wf, GlacierList.length, hs]
  · have h := wf.tail_lt
    rw [hs] at h
    exact h

/-- Witness for C1: capacity 2, one append followed by a three-element
extend. -/
theorem claim_C1_growth_invariant_witness :
    0 < 2 ∧
      (((([GrowOp.app 1, GrowOp.ext [2, 3, 4]] : List (GrowOp Nat)).foldl
            GrowOp.run (GlacierList.empty 2)).combine_chunks.length =
          (([GrowOp.app 1, GrowOp.ext [2, 3, 4]] : List (GrowOp Nat)).foldl
            GrowOp.run (GlacierList.empty 2)).chunk_count * 2 +
          (([GrowOp.app 1, GrowOp.ext [2, 3, 4]] : List (GrowOp Nat)).foldl
            GrowOp.run (GlacierList.empty 2)).tail.length) ∧
        (([GrowOp.app 1, GrowOp.ext [2, 3, 4]] : List (GrowOp Nat)).foldl
          GrowOp.run (GlacierList.empty 2)).tail.length < 2) :=
  ⟨by decide, claim_C1_growth_invariant 2 (by decide) _⟩

/-- C2: the address translator first normalizes a negative index by adding
`total_length`; if the result is still negative or at least `total_length`
the lookup fails with an out-of-range error (`none`); otherwise it resolves
to `Tail(index - chunk_count*chunk_capacity)` when the resolved index is at
least `chunk_count * chunk_capacity`, and to
`Chunk(index / capacity, index % capacity)` otherwise. -/
theorem claim_C2_translate (index : Int) (L cap cc : Nat) :
    (((if index < 0 then index + L else index) < 0 ∨
        (L : Int) ≤ (if index < 0 then index + L else index)) →
      translate index L cap cc = none) ∧
    (0 ≤ (if index < 0 then index + L else index) →
      (if index < 0 then index + L else index) < (L : Int) →
      (cc * cap ≤ (if index < 0 then index + L else index).toNat →
        translate index L cap cc = some (.tail
          ((if index < 0 then index + L else index).toNat - cc * cap))) ∧
      ((if index < 0 then index + L else index).toNat < cc * cap →
        translate index L cap cc = some (.chunk
          ((if index < 0 then index + L else index).toNat / cap)
          ((if index < 0 then index + L else index).toNat % cap)))) := by
  refine ⟨fun h => ?_, fun h0 hL => ⟨fun hge => ?_, fun hlt => ?_⟩⟩
  · simp only [translate]
    rw [if_pos h]
  · simp only [translate]
    rw [if_neg (by omega), if_pos hge]
  · simp only [translate]
    rw [if_neg (by omega), if_neg (by omega)]

/-- Witness for C2: index -1 on a sequence of length 5 with capacity 2 and
two flushed chunks resolves to offset 0 of the tail. -/
theorem claim_C2_translate_witness :
    translate (-1) 5 2 2 = some (Address.tail 0) := by
  have h := ((claim_C2_translate (-1) 5 2 2).2 (by decide) (by decide)).1
    (by decide)
  simpa using h

/-- C3: `append` pushes onto the tail and flushes exactly when the tail
then holds `chunk_capacity` records (saving the tail as chunk
`chunk_count`, incrementing `chunk_count`, clearing the tail);
consequently, from an empty sequence, appending exactly `cap` records
gives one chunk and an empty tail, and appending `cap + k` records
(`0 < k < cap`) gives one chunk and a tail of length `k`. -/
theorem claim_C3_append_boundary {α : Type} :
    (∀ (gl : GlacierList α) (v : α),
      (gl.tail.length + 1 = gl.chunk_size →
        gl.append v = ⟨gl.chunk_size, gl.chunk_count + 1,
          GlacierList.save gl.chunks gl.chunk_count (gl.tail ++ [v]), []⟩) ∧
      (gl.tail.length + 1 ≠ gl.chunk_size →
        gl.append v =
          ⟨gl.chunk_size, gl.chunk_count, gl.chunks, gl.tail ++ [v]⟩)) ∧
    ∀ (cap : Nat), 0 < cap → ∀ (vs : List α),
      (vs.length = cap →
        (vs.foldl GlacierList.append (GlacierList.empty cap)).chunk_count
            = 1 ∧
          (vs.foldl GlacierList.append (GlacierList.empty cap)).tail = []) ∧
      (∀ k : Nat, 0 < k → k < cap → vs.length = cap + k →
        (vs.foldl GlacierList.append (GlacierList.empty cap)).chunk_count
            = 1 ∧
          (vs.foldl GlacierList.append (GlacierList.empty cap)).tail.length
            = k) := by
  constructor
  · exact fun gl v =>
      ⟨GlacierList.append_flush gl v, GlacierList.append_push gl v⟩
  · intro cap hcap vs
    constructor
    · intro hlen
      rw [GlacierList.foldl_append_fill vs (GlacierList.empty cap)
        (by simpa [GlacierList.empty] using hcap)
        (by simpa [GlacierList.empty] using hlen)]
      exact ⟨rfl, rfl⟩
    · intro k hk hkcap hlen
      have hsplit : vs.foldl GlacierList.append (GlacierList.empty cap) =
          (vs.drop cap).foldl GlacierList.append
            ((vs.take cap).foldl GlacierList.append
              (GlacierList.empty cap)) := by
        conv_lhs => rw [← List.take_append_drop cap vs]
        rw [List.foldl_append]
      rw [hsplit,
        GlacierList.foldl_append_fill (vs.take cap) (GlacierList.empty cap)
          (by simpa [GlacierList.empty] using hcap)
          (by simp [GlacierList.empty, List.length_take]; omega),
        GlacierList.foldl_append_small (vs.drop cap) _
          (by simp [GlacierList.empty, List.length_drop]; omega)]
      refine ⟨rfl, ?_⟩
      simp only [List.nil_append, List.length_drop]
      omega

/-- Witness for C3: capacity 2 and three appended records give one chunk
and a tail of length 1. -/
theorem claim_C3_append_boundary_witness :
    (([1, 2, 3] : List Nat).foldl GlacierList.append
        (GlacierList.empty 2)).chunk_count = 1 ∧
      (([1, 2, 3] : List Nat).foldl GlacierList.append
        (GlacierList.empty 2)).tail.length = 1 :=
  (claim_C3_append_boundary.2 2 (by decide) [1, 2, 3]).2 1 (by decide)
    (by decide) (by decide)

/-- C4: on a well-formed sequence, for in-range bounds `start ≤ stop`,
`get_slice(start, stop)` returns exactly `[get(i) for i in
range(start, stop)]` (each `get` succeeding), including when the range
spans the chunk/tail boundary. -/
theorem claim_C4_slice_equiv {gl : GlacierList α} (wf : WF gl)
    (start stop : Nat) (h1 : start ≤ stop) (h2 : stop ≤ gl.length) :
    (gl.get_slice start stop).map some =
      (List.range' start (stop - start)).map fun i : Nat =>
        gl.get (i : Int) := by
  rw [GlacierList.get_slice_eq_take_drop wf,
    GlacierList.take_drop_map_getElem? _ _ _
      (by rw [GlacierList.combine_length wf]; exact h2)]
  have hfun : (fun i : Nat => gl.combine_chunks[i]?) =
      fun i : Nat => gl.get (i : Int) :=
    funext fun i => (GlacierList.get_eq_combine wf i).symm
  rw [hfun]

/-- Witness for C4: a slice spanning the chunk/tail boundary of a
two-record chunk plus one tail record. -/
theorem claim_C4_slice_equiv_witness :
    ((⟨2, 1, [[10, 11]], [12]⟩ : GlacierList Nat).get_slice 1 3).map some =
      (List.range' 1 (3 - 1)).map fun i : Nat =>
        (⟨2, 1, [[10, 11]], [12]⟩ : GlacierList Nat).get (i : Int) :=
  claim_C4_slice_equiv ⟨by decide, rfl, by decide, by decide⟩ 1 3
    (by decide) (by decide)

/-- C5: after `cleanup_chunks()` no chunk files remain and `chunk_count`
is 0, while the tail is untouched; a second purge returns the same state,
so purge is idempotent and succeeds with zero chunks present. -/
theorem claim_C5_cleanup (gl : GlacierList α) :
    gl.cleanup_chunks.chunks = [] ∧ gl.cleanup_chunks.chunk_count = 0 ∧
      gl.cleanup_chunks.tail = gl.tail ∧
      gl.cleanup_chunks.cleanup_chunks = gl.cleanup_chunks :=
  ⟨rfl, rfl, rfl, rfl⟩

/-- C6: slice assignment fails with a length-mismatch error whenever the
replacement length differs from `stop - start`, and with a type-mismatch
error whenever the replacement is not a sequence; in both cases no new
state is produced, so the sequence contents are unmodified. -/
theorem claim_C6_set_slice_errors (gl : GlacierList α) (start stop : Nat)
    (vs : List α) (v : α) :
    (vs.length ≠ stop - start →
      gl.set_slice start stop (.seq vs) = .error .lengthMismatch) ∧
    gl.set_slice start stop (.nonSeq v) = .error .typeMismatch := by
  constructor
  · intro h
    simp [GlacierList.set_slice, h]
  · rfl

/-- Witness for C6: the spec's concrete scenario, target range of length 2
with a one-element replacement, and with a non-sequence replacement. -/
theorem claim_C6_set_slice_errors_witness :
    ((⟨10, 0, [], [1, 2]⟩ : GlacierList Nat).set_slice 0 2 (.seq [5]) =
        .error .lengthMismatch) ∧
      ((⟨10, 0, [], [1, 2]⟩ : GlacierList Nat).set_slice 0 2 (.nonSeq 5) =
        .error .typeMismatch) :=
  ⟨(claim_C6_set_slice_errors (⟨10, 0, [], [1, 2]⟩ : GlacierList Nat)
      0 2 [5] 5).1 (by decide),
    (claim_C6_set_slice_errors (⟨10, 0, [], [1, 2]⟩ : GlacierList Nat)
      0 2 [5] 5).2⟩

/-- C7: on every at-rest state (positive capacity, tail strictly below
capacity — the invariant of every reachable state), `extend(values)`
produces exactly the state of appending each value in order, so every
observation (length, chunk count, tail, every `get`) coincides. -/
theorem claim_C7_extend_refines_append (gl : GlacierList α) (vs : List α)
    (hcap : 0 < gl.chunk_size) (hlt : gl.tail.length < gl.chunk_size) :
    gl.extend vs = vs.foldl GlacierList.append gl :=
  GlacierList.extend_eq_foldl vs gl hcap hlt

/-- Witness for C7: a four-element extend over a partially filled
capacity-3 sequence. -/
theorem claim_C7_extend_refines_append_witness :
    (⟨3, 1, [[1, 2, 3]], [4]⟩ : GlacierList Nat).extend [5, 6, 7, 8] =
      ([5, 6, 7, 8] : List Nat).foldl GlacierList.append
        (⟨3, 1, [[1, 2, 3]], [4]⟩ : GlacierList Nat) :=
  claim_C7_extend_refines_append _ _ (by decide) (by decide)

/-- C8: `map(f)` (transform_all) preserves the total length and element
order, and afterwards every lookup returns `f` of the previous element at
that index, across chunks and the tail. -/
theorem claim_C8_map (gl : GlacierList α) (f : α → α) :
    (gl.map f).length = gl.length ∧
      ∀ index : Int, (gl.map f).get index = (gl.get index).map f :=
  ⟨map_length gl f, map_get gl f⟩

/-- C9: on a well-formed sequence, `combine_chunks()` has length
`length()` and agrees with `get` at every valid index: it is the chunks in
ascending ordinal order followed by the tail. -/
theorem claim_C9_combine {gl : GlacierList α} (wf : WF gl) :
    gl.combine_chunks.length = gl.length ∧
      ∀ i : Nat, i < gl.length → gl.combine_chunks[i]? = gl.get (i : Int) :=
  ⟨GlacierList.combine_length wf, fun i _ =>
    (GlacierList.get_eq_combine wf i).symm⟩

/-- C10: `serialize()` rewrites every record in place — across flushed
chunks and the tail, preserving length and order (it is the transform-all
of the field-level encoder) — replacing each field whose value is a list,
mapping, or boolean with its JSON text encoding, a string satisfying the
JSON value grammar. -/
theorem claim_C10_serialize (gl : GlacierList Record) :
    ((GlacierList.serialize gl).length = gl.length ∧
      ∀ index : Int, (GlacierList.serialize gl).get index =
        (gl.get index).map serializeRecord) ∧
    (∀ r : Record, ∀ j : Nat, (serializeRecord r)[j]? =
      r[j]?.map fun kv => (kv.1, serializeField kv.2)) ∧
    ∀ v : JVal, needsEncoding v = true →
      serializeField v = .str (String.mk (encodeJ v)) ∧
        JsonValue (String.mk (encodeJ v)).data := by
  refine ⟨⟨map_length gl serializeRecord, map_get gl serializeRecord⟩,
    fun r j => ?_, fun v hv => ⟨?_, ?_⟩⟩
  · simp [serializeRecord, List.getElem?_map]
  · rw [serializeField, if_pos hv]
  · exact encodeJ_valid v

/-- Witness for C10: a boolean field value is rewritten to the JSON text
`true`, on a concrete sequence. -/
theorem claim_C10_serialize_witness :
    needsEncoding (JVal.bool true) = true ∧
      (serializeField (JVal.bool true) =
          .str (String.mk (encodeJ (JVal.bool true))) ∧
        JsonValue (String.mk (encodeJ (JVal.bool true))).data) :=
  ⟨rfl,
    (claim_C10_serialize (GlacierList.empty 10)).2.2 (JVal.bool true) rfl⟩

/-- Witness for C9: one full chunk plus a one-record tail, checked at the
last valid index. -/
theorem claim_C9_combine_witness :
    (⟨2, 1, [[10, 11]], [12]⟩ : GlacierList Nat).combine_chunks.length =
        (⟨2, 1, [[10, 11]], [12]⟩ : GlacierList Nat).length ∧
      (⟨2, 1, [[10, 11]], [12]⟩ : GlacierList Nat).combine_chunks[2]? =
        (⟨2, 1, [[10, 11]], [12]⟩ : GlacierList Nat).get (2 : Int) :=
  ⟨(claim_C9_combine ⟨by decide, rfl, by decide, by decide⟩).1,
    (claim_C9_combine ⟨by decide, rfl, by decide, by decide⟩).2 2
      (by decide)⟩

end GlacierSpec
